import Mathlib

/- Verification development for the Supernova Xcode color-set exporter.

   Embedded source files:
   - files/xcode-theme.ts : theme-name classification and grouping
     (getThemeVariant, deriveBaseThemeName, groupThemes);
   - src/index.ts : export orchestration (Pulsar.export body, theme
     resolution, collection exclusion, per-theme-group file emission).

   JavaScript strings are modelled as lists of characters; the insertion
   ordered Map of groupThemes is modelled as an association list with
   in-place update; the asynchronous orchestration of the corrected export
   variant is awaited sequentially, so it is modelled as a pure function
   from the fetched data to the returned file list. -/

/-- Strings are modelled as lists of characters. -/
abbrev Str := List Char

/-- Whitespace recognised by JavaScript's String.prototype.trim and by the
    regex class \s (ASCII whitespace plus the no-break space). -/
def isSpaceChar (c : Char) : Bool :=
  c == ' ' || c == '\t' || c == '\n' || c == '\r' || c == '\x0b' || c == '\x0c' || c == '\xa0'

/-- Word characters of the JavaScript regex class \w: [A-Za-z0-9_]. -/
def isWordChar (c : Char) : Bool :=
  (decide ('a' ≤ c) && decide (c ≤ 'z')) || (decide ('A' ≤ c) && decide (c ≤ 'Z')) ||
    (decide ('0' ≤ c) && decide (c ≤ '9')) || c == '_'

/-- String.prototype.toLowerCase, restricted to ASCII letters. -/
def toLowerStr (s : Str) : Str := s.map Char.toLower

/-- String.prototype.trim: strip leading and trailing whitespace. -/
def trimStr (s : Str) : Str :=
  ((s.dropWhile isSpaceChar).reverse.dropWhile isSpaceChar).reverse

mutual

/-- Splitting on /\s+/, segment-accumulating state: cur holds the reversed
    characters of the segment being read. -/
def splitWsGo (cur : Str) : Str → List Str
  | [] => [cur.reverse]
  | c :: rest =>
      if isSpaceChar c then cur.reverse :: splitWsSkip rest
      else splitWsGo (c :: cur) rest

/-- Splitting on /\s+/, separator-skipping state: consume the rest of a
    maximal whitespace run, then start the next segment. -/
def splitWsSkip : Str → List Str
  | [] => [[]]
  | c :: rest =>
      if isSpaceChar c then splitWsSkip rest
      else splitWsGo [c] rest

end

/-- JavaScript String.prototype.split with the regex /\s+/: maximal
    whitespace runs act as separators between the returned segments. -/
def splitWs (s : Str) : List Str := splitWsGo [] s

/-- JavaScript regex test /\b<w>\b$/ for an alphabetic word w: the string
    ends with w, and the character preceding that suffix, if any, is not a
    word character (the trailing \b holds trivially at the end of input). -/
def endsWithWord (s w : Str) : Bool :=
  (s.drop (s.length - w.length) == w) &&
    (match (s.take (s.length - w.length)).getLast? with
     | none => true
     | some c => !isWordChar c)

/-- The spec's reading of the classification rule, stated independently of
    the implementation: the string ends with the word w under a
    word-boundary match, i.e. w is a suffix and the character just before
    that suffix, if any, is not a word character. -/
def EndsWithWordAtBoundary (s w : Str) : Prop :=
  ∃ u, s = u ++ w ∧ (u = [] ∨ ∃ c, u.getLast? = some c ∧ isWordChar c = false)

/-- The two theme variants recognised by the grouper. -/
inductive ThemeVariant where
  | light
  | dark
deriving DecidableEq

/-- TokenTheme (SDK record): identifier, identifier inside the version, and
    the display name used by the grouping heuristics. -/
structure TokenTheme where
  id : Str
  idInVersion : Str
  name : Str
deriving DecidableEq

/-- XcodeTheme from files/xcode-theme.ts: a base name with an optional
    light theme and an optional dark theme. -/
structure XcodeTheme where
  name : Str
  lightTheme : Option TokenTheme
  darkTheme : Option TokenTheme
deriving DecidableEq

/-- ThemeVariantMap from files/xcode-theme.ts: a partial record from the
    two variants to themes. -/
structure VariantMap where
  light : Option TokenTheme
  dark : Option TokenTheme
deriving DecidableEq

/-- Read a slot of a ThemeVariantMap (entry[variant]). -/
def vmGet (p : VariantMap) : ThemeVariant → Option TokenTheme
  | ThemeVariant.light => p.light
  | ThemeVariant.dark => p.dark

/-- Write a slot of a ThemeVariantMap (entry[variant] = t). -/
def vmSet (p : VariantMap) (v : ThemeVariant) (t : TokenTheme) : VariantMap :=
  match v with
  | ThemeVariant.light => ⟨some t, p.dark⟩
  | ThemeVariant.dark => ⟨p.light, some t⟩

/-- The diagnostic lines groupThemes sends to the logger, as structured
    events: skipping a theme with no recognised suffix (line 55 of
    files/xcode-theme.ts) and replacing a duplicate variant (line 63). -/
inductive LogEvent where
  | skip (name : Str)
  | dup (v : ThemeVariant) (base : Str)
deriving DecidableEq

/-- getThemeVariant from files/xcode-theme.ts: normalise the name by trim
    and toLowerCase, then test /\blight\b$/ and /\bdark\b$/ in turn. -/
def getThemeVariant (name : Str) : Option ThemeVariant :=
  let normalized := toLowerStr (trimStr name)
  if endsWithWord normalized ("light".data) then some ThemeVariant.light
  else if endsWithWord normalized ("dark".data) then some ThemeVariant.dark
  else none

/-- deriveBaseThemeName from files/xcode-theme.ts (the unused variant
    argument is dropped): trim the name; if empty return it; otherwise the
    first element of trimmed.split(/\s+/), falling back to the trimmed name
    itself (the source's base ?? trimmed). -/
def deriveBaseThemeName (name : Str) : Str :=
  let trimmed := trimStr name
  if trimmed = [] then trimmed
  else (splitWs trimmed).headD trimmed

/-- JavaScript Map.get on an insertion-ordered association list. -/
def mapGet (m : List (Str × VariantMap)) (k : Str) : Option VariantMap :=
  match m with
  | [] => none
  | (k', y) :: rest => if k' = k then some y else mapGet rest k

/-- JavaScript Map.set on an insertion-ordered association list: an
    existing key keeps its position and gets the new value, a new key is
    appended at the end. -/
def mapSet (m : List (Str × VariantMap)) (k : Str) (x : VariantMap) :
    List (Str × VariantMap) :=
  match m with
  | [] => [(k, x)]
  | (k', y) :: rest => if k' = k then (k, x) :: rest else (k', y) :: mapSet rest k x

/-- The body of the per-theme loop of groupThemes (files/xcode-theme.ts
    lines 52-68), acting on the accumulated groups and log events: an
    unclassified theme is skipped with a log line; a classified theme is
    written into its base's entry, logging a duplicate warning first when
    the slot is already occupied. -/
def groupStep (st : List (Str × VariantMap) × List LogEvent) (t : TokenTheme) :
    List (Str × VariantMap) × List LogEvent :=
  match getThemeVariant t.name with
  | none => (st.1, st.2 ++ [LogEvent.skip t.name])
  | some v =>
      let b := deriveBaseThemeName t.name
      let entry := (mapGet st.1 b).getD ⟨none, none⟩
      (mapSet st.1 b (vmSet entry v t),
        if (vmGet entry v).isSome then st.2 ++ [LogEvent.dup v b] else st.2)

/-- The grouping loop of groupThemes run over the whole input, returning
    the accumulated Map together with the log events it produced. -/
def groupThemesRun (themes : List TokenTheme) :
    List (Str × VariantMap) × List LogEvent :=
  themes.foldl groupStep ([], [])

/-- groupThemes from files/xcode-theme.ts: empty input returns empty
    output; otherwise the grouping loop runs and every Map entry with a
    light or a dark theme becomes an XcodeTheme, in Map iteration order. -/
def groupThemes (themes : List TokenTheme) : List XcodeTheme :=
  if themes = [] then []
  else
    ((groupThemesRun themes).1).filterMap (fun e =>
      if e.2.light.isSome || e.2.dark.isSome then
        some ⟨e.1, e.2.light, e.2.dark⟩
      else none)

/-- The log events produced by a run of groupThemes. -/
def groupThemesLog (themes : List TokenTheme) : List LogEvent :=
  (groupThemesRun themes).2

/-- A theme classifies to base b and variant v when getThemeVariant
    recognises v in its name and the derived base name is b. -/
def classifiesTo (t : TokenTheme) (b : Str) (v : ThemeVariant) : Bool :=
  getThemeVariant t.name == some v && deriveBaseThemeName t.name == b

/-- The slot of an output group corresponding to a variant. -/
def slotOfGroup (g : XcodeTheme) : ThemeVariant → Option TokenTheme
  | ThemeVariant.light => g.lightTheme
  | ThemeVariant.dark => g.darkTheme

/-- The slot held for base b and variant v inside the accumulated Map. -/
def slotIn (gs : List (Str × VariantMap)) (b : Str) (v : ThemeVariant) :
    Option TokenTheme :=
  vmGet ((mapGet gs b).getD ⟨none, none⟩) v

/-- First-some choice on options. -/
def optOr {α : Type} (a b : Option α) : Option α :=
  match a with
  | some x => some x
  | none => b

/-- The base names of the classified themes, in input order. -/
def classifiedBases (themes : List TokenTheme) : List Str :=
  themes.filterMap (fun t =>
    (getThemeVariant t.name).map (fun _ => deriveBaseThemeName t.name))

/-- Append a key if it is not already present. -/
def insKey (acc : List Str) (b : Str) : List Str :=
  if b ∈ acc then acc else acc ++ [b]

/-- Deduplication keeping the first occurrence of each element. -/
def firstOccur (l : List Str) : List Str := l.foldl insKey []

/-- Token types: only color tokens are processed by the exporter, so the
    model keeps one constructor for color and one for everything else. -/
inductive TokenType where
  | color
  | other
deriving DecidableEq

/-- Token (SDK record), restricted to the fields the exporter reads: the
    identifier, the token type, the owning collection's identifier (absent
    when the token has no collection) and the resolved value. -/
structure Token where
  id : Str
  tokenType : TokenType
  collectionId : Option Str
  value : Str
deriving DecidableEq

/-- TokenCollection (SDK record): persistent identifier and name. -/
structure TokenCollection where
  persistentId : Str
  name : Str
deriving DecidableEq

/-- The naming cases the exporter mentions (StringCase from export-utils,
    restricted to the two cases the source uses). -/
inductive StringCase where
  | pascalCase
  | kebabCase
deriving DecidableEq

/-- ExporterConfiguration (../config): the recognised options, per spec
    section 6 and their uses in src/index.ts. -/
structure ExporterConfiguration where
  generateRootCatalog : Bool
  rootCatalogPath : Str
  excludeCollectionsInPipelines : Bool
  excludedCollections : List Str
  writeNameToProperty : Bool
  propertyToWriteNameTo : Str
  folderNameStyle : Option StringCase
deriving DecidableEq

/-- The info object { version: 1, author: "xcode" } shared by all emitted
    Contents.json documents. -/
structure InfoJson where
  version : Nat
  author : Str
deriving DecidableEq

/-- One element of an appearances array, e.g.
    { appearance: "luminosity", value: "dark" }. -/
structure Appearance where
  appearance : Str
  value : Str
deriving DecidableEq

/-- One element of the colors array of a per-token color set: a color value
    plus an optional appearances array (absent on the base entry, present
    on the dark entry). -/
structure ColorSetEntry where
  color : Str
  appearances : Option (List Appearance)
deriving DecidableEq

/-- A per-token color-set Contents.json document: the colors array and the
    info object. -/
structure ColorSetJson where
  colors : List ColorSetEntry
  info : InfoJson
deriving DecidableEq

/-- A namespace-marker Contents.json document:
    { info: ..., properties: { "provides-namespace": ... } }; the
    providesNamespace field models the "provides-namespace" key of the
    properties object. -/
structure NamespaceJson where
  info : InfoJson
  providesNamespace : Bool
deriving DecidableEq

/-- Contents of an output file: plain text (the log), a namespace marker, a
    root-catalog marker (info object only), or a per-token color set. The
    JSON.stringify serialisation of the structured documents is abstracted;
    it is injective, so equality of contents is preserved. -/
inductive FileContent where
  | text (s : Str)
  | namespaceMarker (j : NamespaceJson)
  | rootMarker (info : InfoJson)
  | colorSet (j : ColorSetJson)
deriving DecidableEq

/-- An output file as handed back to the export engine: relative path, file
    name and content. -/
structure OutputFile where
  path : Str
  name : Str
  content : FileContent
deriving DecidableEq

/-- The shared info object of every emitted document. -/
def xcodeInfo : InfoJson := ⟨1, "xcode".data⟩

/-- createNameSpaceFolder from src/index.ts: a Contents.json at
    ./rootPath/name (or ./name when the root path is empty) whose content
    is { info: { version: 1, author: "xcode" },
         properties: { "provides-namespace": true } }. -/
def createNameSpaceFolder (name rootPath : Str) : OutputFile :=
  { path := if rootPath = [] then "./".data ++ name
            else "./".data ++ rootPath ++ "/".data ++ name
    name := "Contents.json".data
    content := FileContent.namespaceMarker ⟨xcodeInfo, true⟩ }

/-- Modelled from the spec: createCatalogRootFile lives in
    ./files/color-sets, which is not under src/; per spec section 6 the
    root catalog marker is the equivalent structure without the namespace
    property, emitted at the root catalog path. -/
def createCatalogRootFile (rootPath : Str) : OutputFile :=
  { path := "./".data ++ rootPath
    name := "Contents.json".data
    content := FileContent.rootMarker xcodeInfo }

/-- Modelled from the spec: createPerTokenFile lives in ./files/color-sets,
    which is not under src/; per spec sections 4.2d and 6 it emits, for one
    token, a Contents.json under a folder named after the token inside the
    colors path, whose colors array holds one base entry without
    appearances and one entry per variant tagged
    { appearances: [{ appearance: "luminosity", value: "dark" }] }.
    The token-name derivation (TokenNameTracker plus the configured naming
    style over the token-group tree) is abstracted as nameFn. -/
def createPerTokenFile (nameFn : Token → Str) (base : Token)
    (colorsPath : Str) (variants : List Token) : OutputFile :=
  { path := "./".data ++ colorsPath ++ "/".data ++ nameFn base
    name := "Contents.json".data
    content := FileContent.colorSet
      ⟨⟨base.value, none⟩ ::
         variants.map (fun t =>
           ⟨t.value, some [⟨"luminosity".data, "dark".data⟩]⟩),
       xcodeInfo⟩ }

/-- JavaScript new Map(list.map(t => [t.id, t])).get(k): the value of the
    last list element whose id equals the key. -/
def jsMapGet (ts : List Token) (k : Str) : Option Token :=
  (ts.filter (fun t => t.id == k)).getLast?

/-- computeTokensForTheme from src/index.ts: no theme yields the empty
    valuation, otherwise the SDK applies the theme to all tokens; the SDK
    call computeTokensByApplyingThemes is abstracted as applyTheme. -/
def computeTokensForTheme (applyTheme : List Token → TokenTheme → List Token)
    (tokens : List Token) : Option TokenTheme → List Token
  | none => []
  | some th => applyTheme tokens th

/-- createThemeColors from src/index.ts: compute the base and dark
    valuations, index them by token id, and emit one color-set file per
    color token whose base entry is the token's value under the base
    valuation (falling back to the token itself) and whose variant list
    holds the dark valuation's token when present. The optional name
    write-back and the log lines are side effects that do not change the
    emitted files and are not modelled. -/
def createThemeColors (applyTheme : List Token → TokenTheme → List Token)
    (nameFn : Token → Str) (tokens colorTokens : List Token)
    (colorsPath : Str) (lightTheme : TokenTheme)
    (darkTheme : Option TokenTheme) : List OutputFile :=
  let baseTokens := computeTokensForTheme applyTheme tokens (some lightTheme)
  let darkTokens := computeTokensForTheme applyTheme tokens darkTheme
  colorTokens.map (fun token =>
    let baseToken := (jsMapGet baseTokens token.id).getD token
    let variants :=
      match jsMapGet darkTokens token.id with
      | some d => [d]
      | none => []
    createPerTokenFile nameFn baseToken colorsPath variants)

/-- exportThemeGroup from src/index.ts: build the namespace marker for the
    group's code-safe name; when the group has no light theme return only
    that marker, otherwise follow it with the per-token color-set files.
    NamingHelper.codeSafeVariableName is abstracted as codeSafe. -/
def exportThemeGroup (codeSafe : Str → StringCase → Str)
    (applyTheme : List Token → TokenTheme → List Token)
    (nameFn : Token → Str) (tokens colorTokens : List Token)
    (rootPath : Str) (g : XcodeTheme) : List OutputFile :=
  let themeName := codeSafe g.name StringCase.pascalCase
  let namespaceFile := createNameSpaceFolder themeName rootPath
  match g.lightTheme with
  | none => [namespaceFile]
  | some lt =>
      let colorsPath :=
        if rootPath = [] then themeName
        else rootPath ++ "/".data ++ themeName
      namespaceFile ::
        createThemeColors applyTheme nameFn tokens colorTokens colorsPath lt
          g.darkTheme

/-- resolveRootPath from src/index.ts: empty when no root catalog is
    generated, otherwise the configured path with "Colors.xcassets" as the
    default for an empty (falsy) configured string. -/
def resolveRootPath (config : ExporterConfiguration) : Str :=
  if config.generateRootCatalog = false then []
  else if config.rootCatalogPath = [] then "Colors.xcassets".data
  else config.rootCatalogPath

/-- The log file created by the Logger constructor: log.txt at the root
    path. Its accumulated text contains wall-clock timestamps, so the
    content is abstracted as empty text; the file is identified by its
    path and name. -/
def logFileOf (rootPath : Str) : OutputFile :=
  { path := if rootPath = [] then [] else "./".data ++ rootPath ++ "/".data
    name := "log.txt".data
    content := FileContent.text [] }

/-- The theme-resolution loop of Pulsar.export (src/index.ts lines
    101-107): map each requested id to the first fetched theme whose id or
    idInVersion equals it; an id with no match throws, aborting the whole
    map, so the exception of the earliest failing id propagates. -/
def resolveThemes (themeIds : List Str) (themes : List TokenTheme) :
    Except Str (List TokenTheme) :=
  match themeIds with
  | [] => Except.ok []
  | themeId :: rest =>
      match themes.find? (fun t => t.id == themeId || t.idInVersion == themeId) with
      | some th =>
          match resolveThemes rest themes with
          | Except.ok ts => Except.ok (th :: ts)
          | Except.error e => Except.error e
      | none => Except.error ("Unable to find theme ".data ++ themeId)

/-- filterExcludedCollections from src/index.ts: when exclusion is off or
    the exclusion list is empty, keep everything; otherwise drop each token
    whose collection (looked up by persistentId) has a lower-cased, trimmed
    name inside the lower-cased, trimmed exclusion set. -/
def filterExcludedCollections (config : ExporterConfiguration)
    (colorTokens : List Token) (tokenCollections : List TokenCollection) :
    List Token :=
  if config.excludeCollectionsInPipelines = false ∨
      config.excludedCollections = [] then colorTokens
  else
    let excludedCollectionNames :=
      config.excludedCollections.map (fun n => toLowerStr (trimStr n))
    colorTokens.filter (fun token =>
      match tokenCollections.find?
          (fun c => token.collectionId == some c.persistentId) with
      | none => true
      | some c => !(excludedCollectionNames.contains (toLowerStr (trimStr c.name))))

/-- The data a run of Pulsar.export consumes: the fetched tokens and
    collections, the requested theme ids (absent when the context carries
    none), the fetched themes, the configuration, and the abstracted SDK
    capabilities (theme application, code-safe naming, per-token naming). -/
structure ExportInput where
  tokens : List Token
  tokenCollections : List TokenCollection
  themeIds : Option (List Str)
  themes : List TokenTheme
  config : ExporterConfiguration
  applyTheme : List Token → TokenTheme → List Token
  codeSafe : Str → StringCase → Str
  nameFn : Token → Str

/-- The theme-selection step of Pulsar.export: themes are resolved only
    when the context carries a non-empty id list, otherwise none apply. -/
def resolveRequestedThemes (inp : ExportInput) : Except Str (List TokenTheme) :=
  match inp.themeIds with
  | some ids => if ids = [] then Except.ok [] else resolveThemes ids inp.themes
  | none => Except.ok []

/-- The color tokens surviving the type filter and the collection
    exclusion, as computed by Pulsar.export before the theme-group loop. -/
def filteredColorTokens (inp : ExportInput) : List Token :=
  filterExcludedCollections inp.config
    (inp.tokens.filter (fun t => t.tokenType == TokenType.color))
    inp.tokenCollections

/-- The file list Pulsar.export builds once the themes are resolved: the
    log file, then the root catalog when enabled, then for each theme group
    in order the files of exportThemeGroup. -/
def exportFiles (inp : ExportInput) (themesToApply : List TokenTheme) :
    List OutputFile :=
  logFileOf (resolveRootPath inp.config) ::
    (if inp.config.generateRootCatalog then
       [createCatalogRootFile (resolveRootPath inp.config)]
     else []) ++
    ((groupThemes themesToApply).map (fun g =>
      exportThemeGroup inp.codeSafe inp.applyTheme inp.nameFn inp.tokens
        (filteredColorTokens inp) (resolveRootPath inp.config) g)).flatten

/-- Pulsar.export from src/index.ts (corrected, fully awaited variant): the
    run aborts with the thrown error when theme resolution fails, and
    otherwise returns the collected file list. -/
def pulsarExport (inp : ExportInput) : Except Str (List OutputFile) :=
  (resolveRequestedThemes inp).map (exportFiles inp)

/-- The base value an emitted file carries: the color of the entry of its
    colors array that has no appearances tag. -/
def fileBaseValue (f : OutputFile) : Option Str :=
  match f.content with
  | FileContent.colorSet j =>
      ((j.colors.find? (fun e => e.appearances.isNone)).map ColorSetEntry.color)
  | _ => none

/-- Whether an emitted file carries a dark variant: some entry of its
    colors array is tagged with an appearances array. -/
def fileHasDarkVariant (f : OutputFile) : Bool :=
  match f.content with
  | FileContent.colorSet j => j.colors.any (fun e => e.appearances.isSome)
  | _ => false

/- Concrete sample data used to instantiate the theorems below on closed
   inputs. -/

/-- A sample theme application capability: every theme maps the whole token
    set to one color token tok1 whose value is the theme's name. -/
def sampleApply : List Token → TokenTheme → List Token :=
  fun _ th => [⟨"tok1".data, TokenType.color, none, th.name⟩]

/-- A sample code-safe naming capability: the identity on the name. -/
def sampleCodeSafe : Str → StringCase → Str := fun s _ => s

/-- A sample per-token naming capability: the token's id. -/
def sampleNameFn : Token → Str := fun t => t.id

/-- A color token owned by collection col1. -/
def sampleTokenRed : Token :=
  ⟨"tok1".data, TokenType.color, some ("col1".data), "#ff0000".data⟩

/-- A color token owned by no collection. -/
def sampleTokenBlue : Token :=
  ⟨"tok2".data, TokenType.color, none, "#0000ff".data⟩

/-- The collection owning tok1, whose padded name matches the exclusion
    entry after trimming and lower-casing. -/
def sampleCollection : TokenCollection := ⟨"col1".data, " Excluded ".data⟩

/-- A configuration with collection exclusion enabled. -/
def sampleConfigExcl : ExporterConfiguration :=
  ⟨true, [], true, [" EXCLUDED ".data], false, [], none⟩

/-- A configuration with every optional behaviour off. -/
def sampleConfigPlain : ExporterConfiguration :=
  ⟨false, [], false, [], false, [], none⟩

/-- Sample fetched themes. -/
def sampleThemeLight : TokenTheme := ⟨"t1".data, "v1".data, "Brand Light".data⟩

/-- Sample fetched dark theme of the same base. -/
def sampleThemeDark : TokenTheme := ⟨"t2".data, "v2".data, "Brand Dark".data⟩

/-- A theme with no recognised variant suffix. -/
def sampleThemePlain : TokenTheme := ⟨"t3".data, "v3".data, "Brand".data⟩

/-- A second light theme of base A. -/
def sampleThemeALight : TokenTheme := ⟨"t4".data, "v4".data, "A Light".data⟩

/-- Another light theme of base A, duplicating the previous variant. -/
def sampleThemeALight2 : TokenTheme := ⟨"t5".data, "v5".data, "A Light".data⟩

/-- A full sample export input whose two requested ids resolve (one by id,
    one by idInVersion). -/
def sampleInput : ExportInput :=
  ⟨[sampleTokenRed, sampleTokenBlue], [sampleCollection],
   some ["t1".data, "v2".data], [sampleThemeLight, sampleThemeDark],
   sampleConfigPlain, sampleApply, sampleCodeSafe, sampleNameFn⟩

/-- The same export input but requesting an id no fetched theme carries. -/
def sampleInputMissing : ExportInput :=
  ⟨[sampleTokenRed, sampleTokenBlue], [sampleCollection],
   some ["zz".data], [sampleThemeLight, sampleThemeDark],
   sampleConfigPlain, sampleApply, sampleCodeSafe, sampleNameFn⟩

/- Lemmas about the regex tests and string helpers. -/

/-- Unfolding of getThemeVariant. -/
theorem getThemeVariant_def (name : Str) :
    getThemeVariant name =
      if endsWithWord (toLowerStr (trimStr name)) ("light".data) = true
      then some ThemeVariant.light
      else if endsWithWord (toLowerStr (trimStr name)) ("dark".data) = true
      then some ThemeVariant.dark
      else none := rfl

/-- The boolean regex test agrees with the spec-level word-boundary
    predicate. -/
theorem endsWithWord_iff (s w : Str) :
    endsWithWord s w = true ↔ EndsWithWordAtBoundary s w := by
  constructor
  · intro h
    unfold endsWithWord at h
    rw [Bool.and_eq_true] at h
    obtain ⟨h1, h2⟩ := h
    rw [beq_iff_eq] at h1
    refine ⟨s.take (s.length - w.length), ?_, ?_⟩
    · conv_lhs => rw [← List.take_append_drop (s.length - w.length) s]
      rw [h1]
    · cases hl : (s.take (s.length - w.length)).getLast? with
      | none => exact Or.inl (List.getLast?_eq_none_iff.mp hl)
      | some c =>
          rw [hl] at h2
          exact Or.inr ⟨c, rfl, by simpa using h2⟩
  · rintro ⟨u, rfl, hb⟩
    unfold endsWithWord
    have hlen : (u ++ w).length - w.length = u.length := by simp
    rw [Bool.and_eq_true, beq_iff_eq, hlen, List.drop_left, List.take_left]
    refine ⟨rfl, ?_⟩
    rcases hb with hu | ⟨c, hc, hw⟩
    · subst hu; rfl
    · rw [hc]; simp [hw]

/-- No string ends with the word light and with the word dark at once. -/
theorem not_light_and_dark (s : Str) :
    EndsWithWordAtBoundary s ("light".data) →
      EndsWithWordAtBoundary s ("dark".data) → False := by
  rintro ⟨u, hu, _⟩ ⟨u', hu', _⟩
  have h1 : s.getLast? = some 't' := by
    rw [hu, List.getLast?_append]; rfl
  have h2 : s.getLast? = some 'k' := by
    rw [hu', List.getLast?_append]; rfl
  rw [h1] at h2
  simp at h2

/-- getThemeVariant answers light exactly when the normalised name ends
    with the word light at a boundary. -/
theorem getThemeVariant_light_iff (name : Str) :
    getThemeVariant name = some ThemeVariant.light ↔
      EndsWithWordAtBoundary (toLowerStr (trimStr name)) ("light".data) := by
  rw [getThemeVariant_def]
  by_cases h1 : endsWithWord (toLowerStr (trimStr name)) ("light".data) = true
  · rw [if_pos h1]
    exact ⟨fun _ => (endsWithWord_iff _ _).mp h1, fun _ => rfl⟩
  · have h1' : ¬ EndsWithWordAtBoundary (toLowerStr (trimStr name)) ("light".data) :=
      fun hc => h1 ((endsWithWord_iff _ _).mpr hc)
    rw [if_neg h1]
    by_cases h2 : endsWithWord (toLowerStr (trimStr name)) ("dark".data) = true
    · rw [if_pos h2]
      exact ⟨fun hc => absurd hc (by decide), fun hc => absurd hc h1'⟩
    · rw [if_neg h2]
      exact ⟨fun hc => absurd hc (by decide), fun hc => absurd hc h1'⟩

/-- getThemeVariant answers dark exactly when the normalised name ends
    with the word dark at a boundary. -/
theorem getThemeVariant_dark_iff (name : Str) :
    getThemeVariant name = some ThemeVariant.dark ↔
      EndsWithWordAtBoundary (toLowerStr (trimStr name)) ("dark".data) := by
  rw [getThemeVariant_def]
  by_cases h1 : endsWithWord (toLowerStr (trimStr name)) ("light".data) = true
  · rw [if_pos h1]
    refine ⟨fun hc => absurd hc (by decide), fun hd => ?_⟩
    exact (not_light_and_dark _ ((endsWithWord_iff _ _).mp h1) hd).elim
  · rw [if_neg h1]
    by_cases h2 : endsWithWord (toLowerStr (trimStr name)) ("dark".data) = true
    · rw [if_pos h2]
      exact ⟨fun _ => (endsWithWord_iff _ _).mp h2, fun _ => rfl⟩
    · rw [if_neg h2]
      exact ⟨fun hc => absurd hc (by decide),
             fun hd => absurd ((endsWithWord_iff _ _).mpr hd) h2⟩

/-- A classified theme name has a non-empty trimmed form. -/
theorem trimStr_ne_nil_of_variant (name : Str) (v : ThemeVariant)
    (h : getThemeVariant name = some v) : trimStr name ≠ [] := by
  intro hnil
  rw [getThemeVariant_def, hnil] at h
  revert h
  cases v <;> decide

/-- The head of the splitter's output is the accumulated segment followed
    by the maximal leading run of non-whitespace characters. -/
theorem splitWsGo_head (s : Str) :
    ∀ cur : Str, (splitWsGo cur s).head? =
      some (cur.reverse ++ s.takeWhile (fun c => !isSpaceChar c)) := by
  induction s with
  | nil => intro cur; simp [splitWsGo]
  | cons c rest ih =>
      intro cur
      by_cases h : isSpaceChar c = true
      · simp [splitWsGo, h, List.takeWhile_cons]
      · rw [show splitWsGo cur (c :: rest) =
              (if isSpaceChar c then cur.reverse :: splitWsSkip rest
               else splitWsGo (c :: cur) rest) from rfl]
        rw [if_neg (by simpa using h), ih (c :: cur)]
        simp [List.takeWhile_cons, h]

/-- On a non-empty trimmed name, the derived base name is the maximal
    leading run of non-whitespace characters of the trimmed name. -/
theorem deriveBaseThemeName_eq_takeWhile (name : Str) (h : trimStr name ≠ []) :
    deriveBaseThemeName name =
      (trimStr name).takeWhile (fun c => !isSpaceChar c) := by
  unfold deriveBaseThemeName
  rw [if_neg h]
  have hh : (splitWs (trimStr name)).head? =
      some ((trimStr name).takeWhile (fun c => !isSpaceChar c)) := by
    simpa using splitWsGo_head (trimStr name) []
  rw [List.headD_eq_head?_getD, hh]
  rfl

/- Lemmas about the association-list model of the JavaScript Map. -/

/-- Setting a key makes it readable. -/
theorem mapGet_mapSet_self (m : List (Str × VariantMap)) (k : Str) (x : VariantMap) :
    mapGet (mapSet m k x) k = some x := by
  induction m with
  | nil => simp [mapSet, mapGet]
  | cons e rest ih =>
      obtain ⟨k', y⟩ := e
      by_cases h : k' = k
      · simp [mapSet, mapGet, h]
      · simp [mapSet, mapGet, h, ih]

/-- Setting one key leaves every other key unchanged. -/
theorem mapGet_mapSet_ne (m : List (Str × VariantMap)) (k k' : Str)
    (x : VariantMap) (h : k' ≠ k) :
    mapGet (mapSet m k x) k' = mapGet m k' := by
  have hkk : ¬ (k = k') := fun hc => h hc.symm
  induction m with
  | nil => simp [mapSet, mapGet, hkk]
  | cons e rest ih =>
      obtain ⟨k'', y⟩ := e
      by_cases h2 : k'' = k
      · have hne : ¬ (k'' = k') := fun hc => h (hc.symm.trans h2)
        simp only [mapSet, if_pos h2]
        simp only [mapGet, if_neg hkk, if_neg hne]
      · simp only [mapSet, if_neg h2]
        simp only [mapGet]
        by_cases h3 : k'' = k'
        · simp only [if_pos h3]
        · simp only [if_neg h3, ih]

/-- A readable binding is a member of the list. -/
theorem mapGet_mem (m : List (Str × VariantMap)) (k : Str) (p : VariantMap)
    (h : mapGet m k = some p) : (k, p) ∈ m := by
  induction m with
  | nil => simp [mapGet] at h
  | cons e rest ih =>
      obtain ⟨k', y⟩ := e
      by_cases h2 : k' = k
      · subst h2
        rw [mapGet, if_pos rfl] at h
        obtain rfl := Option.some.inj h
        exact List.mem_cons_self _ _
      · rw [mapGet, if_neg h2] at h
        exact List.mem_cons_of_mem _ (ih h)

/-- Members after a set come from the old list or are the new binding. -/
theorem mem_mapSet (m : List (Str × VariantMap)) (k : Str) (x : VariantMap)
    (e : Str × VariantMap) (h : e ∈ mapSet m k x) : e ∈ m ∨ e = (k, x) := by
  induction m with
  | nil =>
      simp [mapSet] at h
      exact Or.inr h
  | cons f rest ih =>
      obtain ⟨k', y⟩ := f
      by_cases h2 : k' = k
      · rw [mapSet, if_pos h2] at h
        rcases List.mem_cons.mp h with h3 | h3
        · exact Or.inr h3
        · exact Or.inl (List.mem_cons_of_mem _ h3)
      · rw [mapSet, if_neg h2] at h
        rcases List.mem_cons.mp h with h3 | h3
        · exact Or.inl (h3 ▸ List.mem_cons_self _ _)
        · rcases ih h3 with h4 | h4
          · exact Or.inl (List.mem_cons_of_mem _ h4)
          · exact Or.inr h4

/-- Setting a key appends it to the key sequence when new and keeps the
    key sequence otherwise. -/
theorem keys_mapSet (m : List (Str × VariantMap)) (k : Str) (x : VariantMap) :
    (mapSet m k x).map Prod.fst = insKey (m.map Prod.fst) k := by
  induction m with
  | nil => simp [mapSet, insKey]
  | cons f rest ih =>
      obtain ⟨k', y⟩ := f
      by_cases h2 : k' = k
      · have e1 : mapSet ((k', y) :: rest) k x = (k, x) :: rest := by
          simp only [mapSet, if_pos h2]
        rw [e1]
        simp only [List.map_cons]
        unfold insKey
        rw [if_pos (by rw [← h2]; exact List.mem_cons_self _ _)]
        rw [h2]
      · rw [mapSet, if_neg h2]
        simp only [List.map_cons, ih]
        unfold insKey
        by_cases h3 : k ∈ rest.map Prod.fst
        · rw [if_pos h3, if_pos (List.mem_cons.mpr (Or.inr h3))]
        · rw [if_neg h3, if_neg ?_]
          · simp
          · intro hc
            rcases List.mem_cons.mp hc with h4 | h4
            · exact h2 h4.symm
            · exact h3 h4

/-- Setting a key grows the list by at most one binding. -/
theorem length_mapSet (m : List (Str × VariantMap)) (k : Str) (x : VariantMap) :
    (mapSet m k x).length ≤ m.length + 1 := by
  induction m with
  | nil =>
      rw [mapSet]
      simp
  | cons f rest ih =>
      obtain ⟨k', y⟩ := f
      by_cases h2 : k' = k
      · rw [mapSet, if_pos h2]
        simp
  

      · rw [mapSet, if_neg h2]
        simp only [List.length_cons]
        omega

/-- Reading the slot just written. -/
theorem vmGet_vmSet_self (p : VariantMap) (v : ThemeVariant) (t : TokenTheme) :
    vmGet (vmSet p v t) v = some t := by
  cases v <;> rfl

/-- Writing one slot leaves the other unchanged. -/
theorem vmGet_vmSet_ne (p : VariantMap) (v v' : ThemeVariant) (t : TokenTheme)
    (h : v' ≠ v) : vmGet (vmSet p v' t) v = vmGet p v := by
  cases v <;> cases v' <;> first | rfl | exact absurd rfl h

/-- optOr ignores a none on the right. -/
theorem optOr_none_right {α : Type} (a : Option α) : optOr a none = a := by
  cases a <;> rfl

/-- optOr is associative. -/
theorem optOr_assoc {α : Type} (a b c : Option α) :
    optOr (optOr a b) c = optOr a (optOr b c) := by
  cases a <;> rfl

/-- The getLast? of a cons prefers the last element of the tail. -/
theorem getLast?_cons_optOr {α : Type} (l : List α) (a : α) :
    (a :: l).getLast? = optOr l.getLast? (some a) := by
  induction l generalizing a with
  | nil => rfl
  | cons b m ih =>
      rw [List.getLast?_cons_cons, ih b]
      cases hm : m.getLast? <;> rfl

/- Lemmas about one step and the whole fold of the grouping loop. -/

/-- Unfolding of groupStep on an unclassified theme. -/
theorem groupStep_none (st : List (Str × VariantMap) × List LogEvent)
    (t : TokenTheme) (h : getThemeVariant t.name = none) :
    groupStep st t = (st.1, st.2 ++ [LogEvent.skip t.name]) := by
  simp only [groupStep, h]

/-- Unfolding of groupStep on a classified theme. -/
theorem groupStep_some (st : List (Str × VariantMap) × List LogEvent)
    (t : TokenTheme) (v : ThemeVariant) (h : getThemeVariant t.name = some v) :
    groupStep st t =
      (mapSet st.1 (deriveBaseThemeName t.name)
         (vmSet ((mapGet st.1 (deriveBaseThemeName t.name)).getD ⟨none, none⟩) v t),
       if (slotIn st.1 (deriveBaseThemeName t.name) v).isSome
       then st.2 ++ [LogEvent.dup v (deriveBaseThemeName t.name)]
       else st.2) := by
  simp only [groupStep, h, slotIn]

/-- The slot written by a set is readable back through slotIn. -/
theorem slotIn_mapSet_self (gs : List (Str × VariantMap)) (b : Str)
    (p : VariantMap) (v : ThemeVariant) (t : TokenTheme) :
    slotIn (mapSet gs b (vmSet p v t)) b v = some t := by
  unfold slotIn
  rw [mapGet_mapSet_self]
  simp [vmGet_vmSet_self]

/-- A set addressed at a different base or variant leaves a slot
    unchanged. -/
theorem slotIn_mapSet_other (gs : List (Str × VariantMap)) (b' : Str)
    (v' : ThemeVariant) (t : TokenTheme) (b : Str) (v : ThemeVariant)
    (h : ¬(b' = b ∧ v' = v)) :
    slotIn (mapSet gs b' (vmSet ((mapGet gs b').getD ⟨none, none⟩) v' t)) b v =
      slotIn gs b v := by
  by_cases hb : b' = b
  · subst hb
    have hv : v' ≠ v := fun hv => h ⟨rfl, hv⟩
    unfold slotIn
    rw [mapGet_mapSet_self]
    simp only [Option.getD_some]
    rw [vmGet_vmSet_ne _ _ _ _ hv]
  · unfold slotIn
    rw [mapGet_mapSet_ne _ _ _ _ (fun hc => hb hc.symm)]

/-- One grouping step updates exactly the slot the theme classifies to. -/
theorem slotIn_groupStep (st : List (Str × VariantMap) × List LogEvent)
    (t : TokenTheme) (b : Str) (v : ThemeVariant) :
    slotIn (groupStep st t).1 b v =
      if classifiesTo t b v = true then some t else slotIn st.1 b v := by
  cases h : getThemeVariant t.name with
  | none =>
      rw [groupStep_none st t h]
      have hc : classifiesTo t b v = false := by simp [classifiesTo, h]
      rw [hc, if_neg (by simp)]
  | some v' =>
      have h1 : (groupStep st t).1 =
          mapSet st.1 (deriveBaseThemeName t.name)
            (vmSet ((mapGet st.1 (deriveBaseThemeName t.name)).getD ⟨none, none⟩)
              v' t) := by
        rw [groupStep_some st t v' h]
      rw [h1]
      by_cases hbv : deriveBaseThemeName t.name = b ∧ v' = v
      · obtain ⟨hb, hv⟩ := hbv
        subst hb
        subst hv
        have hc : classifiesTo t (deriveBaseThemeName t.name) v' = true := by
          simp [classifiesTo, h]
        rw [hc, if_pos rfl]
        exact slotIn_mapSet_self _ _ _ _ _
      · have hc : classifiesTo t b v = false := by
          by_cases hv : v' = v
          · subst hv
            have hb : deriveBaseThemeName t.name ≠ b := fun hb => hbv ⟨hb, rfl⟩
            simp [classifiesTo, h, hb]
          · simp [classifiesTo, h, hv]
        rw [hc, if_neg (by simp)]
        exact slotIn_mapSet_other _ _ _ _ _ _ hbv

/-- After folding the grouping loop, a slot holds the last input theme
    classifying to it, and otherwise whatever the initial state held. -/
theorem slot_foldl (ts : List TokenTheme) :
    ∀ (st : List (Str × VariantMap) × List LogEvent) (b : Str) (v : ThemeVariant),
      slotIn (List.foldl groupStep st ts).1 b v =
        optOr ((ts.filter (fun t => classifiesTo t b v)).getLast?)
          (slotIn st.1 b v) := by
  induction ts with
  | nil => intro st b v; simp [optOr]
  | cons t ts ih =>
      intro st b v
      rw [List.foldl_cons, ih (groupStep st t) b v, slotIn_groupStep]
      by_cases hc : classifiesTo t b v = true
      · rw [if_pos hc]
        have hf : (t :: ts).filter (fun t => classifiesTo t b v) =
            t :: ts.filter (fun t => classifiesTo t b v) := by
          simp [List.filter_cons, hc]
        rw [hf, getLast?_cons_optOr, optOr_assoc]
        rfl
      · rw [if_neg hc]
        have hf : (t :: ts).filter (fun t => classifiesTo t b v) =
            ts.filter (fun t => classifiesTo t b v) := by
          simp [List.filter_cons, hc]
        rw [hf]

/-- After folding the grouping loop, the duplicate warnings for one base
    and variant count the classified themes beyond the first one to reach
    an empty slot (every one of them when the slot started occupied). -/
theorem count_foldl_dup (ts : List TokenTheme) :
    ∀ (st : List (Str × VariantMap) × List LogEvent) (b : Str) (v : ThemeVariant),
      ((List.foldl groupStep st ts).2).count (LogEvent.dup v b) =
        st.2.count (LogEvent.dup v b) +
          (if (slotIn st.1 b v).isSome = true
           then (ts.filter (fun t => classifiesTo t b v)).length
           else (ts.filter (fun t => classifiesTo t b v)).length - 1) := by
  induction ts with
  | nil =>
      intro st b v
      by_cases h : (slotIn st.1 b v).isSome = true <;> simp [h]
  | cons t ts ih =>
      intro st b v
      rw [List.foldl_cons, ih (groupStep st t) b v]
      cases h : getThemeVariant t.name with
      | none =>
          have h1 : (groupStep st t).1 = st.1 := by rw [groupStep_none st t h]
          have h2 : (groupStep st t).2 = st.2 ++ [LogEvent.skip t.name] := by
            rw [groupStep_none st t h]
          have hc : classifiesTo t b v = false := by simp [classifiesTo, h]
          have hf : (t :: ts).filter (fun x => classifiesTo x b v) =
              ts.filter (fun x => classifiesTo x b v) := by
            simp [List.filter_cons, hc]
          rw [h1, h2, hf]
          have hcnt : (st.2 ++ [LogEvent.skip t.name]).count (LogEvent.dup v b) =
              st.2.count (LogEvent.dup v b) := by
            simp [List.count_append, List.count_cons]
          rw [hcnt]
      | some v' =>
          have h1 : (groupStep st t).1 =
              mapSet st.1 (deriveBaseThemeName t.name)
                (vmSet ((mapGet st.1 (deriveBaseThemeName t.name)).getD
                    ⟨none, none⟩) v' t) := by
            rw [groupStep_some st t v' h]
          have h2 : (groupStep st t).2 =
              if (slotIn st.1 (deriveBaseThemeName t.name) v').isSome = true
              then st.2 ++ [LogEvent.dup v' (deriveBaseThemeName t.name)]
              else st.2 := by
            rw [groupStep_some st t v' h]
          rw [h1, h2]
          by_cases hbv : deriveBaseThemeName t.name = b ∧ v' = v
          · obtain ⟨hb, hv⟩ := hbv
            subst hb
            subst hv
            have hc : classifiesTo t (deriveBaseThemeName t.name) v' = true := by
              simp [classifiesTo, h]
            have hslot : slotIn (mapSet st.1 (deriveBaseThemeName t.name)
                (vmSet ((mapGet st.1 (deriveBaseThemeName t.name)).getD
                    ⟨none, none⟩) v' t)) (deriveBaseThemeName t.name) v' =
                some t := slotIn_mapSet_self _ _ _ _ _
            rw [hslot, if_pos (show (some t).isSome = true from rfl)]
            have hf : (t :: ts).filter
                (fun x => classifiesTo x (deriveBaseThemeName t.name) v') =
                t :: ts.filter
                  (fun x => classifiesTo x (deriveBaseThemeName t.name) v') := by
              simp [List.filter_cons, hc]
            rw [hf]
            by_cases hocc : (slotIn st.1 (deriveBaseThemeName t.name) v').isSome = true
            · rw [if_pos hocc, if_pos hocc]
              have hcnt : (st.2 ++ [LogEvent.dup v' (deriveBaseThemeName t.name)]).count
                  (LogEvent.dup v' (deriveBaseThemeName t.name)) =
                  st.2.count (LogEvent.dup v' (deriveBaseThemeName t.name)) + 1 := by
                simp [List.count_append, List.count_cons]
              rw [hcnt]
              simp only [List.length_cons]
              omega
            · rw [if_neg hocc, if_neg hocc]
              simp only [List.length_cons]
              omega
          · have hc : classifiesTo t b v = false := by
              by_cases hv : v' = v
              · subst hv
                have hb : deriveBaseThemeName t.name ≠ b := fun hb => hbv ⟨hb, rfl⟩
                simp [classifiesTo, h, hb]
              · simp [classifiesTo, h, hv]
            have hf : (t :: ts).filter (fun x => classifiesTo x b v) =
                ts.filter (fun x => classifiesTo x b v) := by
              simp [List.filter_cons, hc]
            have hslot : slotIn (mapSet st.1 (deriveBaseThemeName t.name)
                (vmSet ((mapGet st.1 (deriveBaseThemeName t.name)).getD
                    ⟨none, none⟩) v' t)) b v = slotIn st.1 b v :=
              slotIn_mapSet_other _ _ _ _ _ _ hbv
            rw [hf, hslot]
            have hne : LogEvent.dup v b ≠ LogEvent.dup v' (deriveBaseThemeName t.name) := by
              intro hcc
              rw [LogEvent.dup.injEq] at hcc
              exact hbv ⟨hcc.2.symm, hcc.1.symm⟩
            by_cases hocc : (slotIn st.1 (deriveBaseThemeName t.name) v').isSome = true
            · rw [if_pos hocc]
              have hcnt : (st.2 ++ [LogEvent.dup v' (deriveBaseThemeName t.name)]).count
                  (LogEvent.dup v b) = st.2.count (LogEvent.dup v b) := by
                simp [List.count_append, List.count_cons, hne]
              rw [hcnt]
            · rw [if_neg hocc]

/-- Every theme stored by the fold comes from the processed input, carries
    the variant of its slot, and derives the base name of its entry. -/
theorem fold_inv (ts : List TokenTheme) :
    ∀ (st : List (Str × VariantMap) × List LogEvent) (themes : List TokenTheme),
      (∀ e ∈ st.1, ∀ v t, vmGet e.2 v = some t →
          t ∈ themes ∧ getThemeVariant t.name = some v ∧
            deriveBaseThemeName t.name = e.1) →
      (∀ t ∈ ts, t ∈ themes) →
      ∀ e ∈ (List.foldl groupStep st ts).1, ∀ v t, vmGet e.2 v = some t →
        t ∈ themes ∧ getThemeVariant t.name = some v ∧
          deriveBaseThemeName t.name = e.1 := by
  induction ts with
  | nil => intro st themes hinv _; exact hinv
  | cons t ts ih =>
      intro st themes hinv hmem
      rw [List.foldl_cons]
      refine ih (groupStep st t) themes ?_
        (fun x hx => hmem x (List.mem_cons_of_mem _ hx))
      cases h : getThemeVariant t.name with
      | none =>
          have h1 : (groupStep st t).1 = st.1 := by rw [groupStep_none st t h]
          rw [h1]
          exact hinv
      | some v' =>
          have h1 : (groupStep st t).1 =
              mapSet st.1 (deriveBaseThemeName t.name)
                (vmSet ((mapGet st.1 (deriveBaseThemeName t.name)).getD
                    ⟨none, none⟩) v' t) := by
            rw [groupStep_some st t v' h]
          rw [h1]
          intro e he v'' t'' hget
          rcases mem_mapSet _ _ _ _ he with hold | hnew
          · exact hinv e hold v'' t'' hget
          · subst hnew
            simp only at hget
            by_cases hv : v'' = v'
            · subst hv
              rw [vmGet_vmSet_self] at hget
              obtain rfl := Option.some.inj hget
              exact ⟨hmem t (List.mem_cons_self _ _), h, rfl⟩
            · rw [vmGet_vmSet_ne _ _ _ _ (fun hc => hv hc.symm)] at hget
              cases hm : mapGet st.1 (deriveBaseThemeName t.name) with
              | none =>
                  rw [hm] at hget
                  cases v'' <;> simp [vmGet] at hget
              | some p =>
                  rw [hm] at hget
                  simp only [Option.getD_some] at hget
                  exact hinv (deriveBaseThemeName t.name, p)
                    (mapGet_mem _ _ _ hm) v'' t'' hget

/-- Every entry produced by the fold has a populated light or dark slot. -/
theorem fold_entries_nonempty (ts : List TokenTheme) :
    ∀ (st : List (Str × VariantMap) × List LogEvent),
      (∀ e ∈ st.1, e.2.light.isSome = true ∨ e.2.dark.isSome = true) →
      ∀ e ∈ (List.foldl groupStep st ts).1,
        e.2.light.isSome = true ∨ e.2.dark.isSome = true := by
  induction ts with
  | nil => intro st h; exact h
  | cons t ts ih =>
      intro st h
      rw [List.foldl_cons]
      refine ih (groupStep st t) ?_
      cases hv : getThemeVariant t.name with
      | none =>
          have h1 : (groupStep st t).1 = st.1 := by rw [groupStep_none st t hv]
          rw [h1]
          exact h
      | some v' =>
          have h1 : (groupStep st t).1 =
              mapSet st.1 (deriveBaseThemeName t.name)
                (vmSet ((mapGet st.1 (deriveBaseThemeName t.name)).getD
                    ⟨none, none⟩) v' t) := by
            rw [groupStep_some st t v' hv]
          rw [h1]
          intro e he
          rcases mem_mapSet _ _ _ _ he with hold | hnew
          · exact h e hold
          · subst hnew
            cases v' <;> simp [vmSet]

/-- The key sequence of the fold inserts the classified base names in
    input order, keeping first occurrences. -/
theorem keys_foldl (ts : List TokenTheme) :
    ∀ (st : List (Str × VariantMap) × List LogEvent),
      ((List.foldl groupStep st ts).1).map Prod.fst =
        (classifiedBases ts).foldl insKey (st.1.map Prod.fst) := by
  induction ts with
  | nil => intro st; simp [classifiedBases]
  | cons t ts ih =>
      intro st
      rw [List.foldl_cons, ih (groupStep st t)]
      cases hv : getThemeVariant t.name with
      | none =>
          have h1 : (groupStep st t).1 = st.1 := by rw [groupStep_none st t hv]
          have hcb : classifiedBases (t :: ts) = classifiedBases ts := by
            simp [classifiedBases, List.filterMap_cons, hv]
          rw [h1, hcb]
      | some v' =>
          have h1 : (groupStep st t).1 =
              mapSet st.1 (deriveBaseThemeName t.name)
                (vmSet ((mapGet st.1 (deriveBaseThemeName t.name)).getD
                    ⟨none, none⟩) v' t) := by
            rw [groupStep_some st t v' hv]
          have hcb : classifiedBases (t :: ts) =
              deriveBaseThemeName t.name :: classifiedBases ts := by
            simp [classifiedBases, List.filterMap_cons, hv]
          rw [h1, hcb, List.foldl_cons, keys_mapSet]

/-- One grouping step grows the Map by at most one entry. -/
theorem length_groupStep (st : List (Str × VariantMap) × List LogEvent)
    (t : TokenTheme) : (groupStep st t).1.length ≤ st.1.length + 1 := by
  cases h : getThemeVariant t.name with
  | none =>
      have h1 : (groupStep st t).1 = st.1 := by rw [groupStep_none st t h]
      rw [h1]
      omega
  | some v' =>
      have h1 : (groupStep st t).1 =
          mapSet st.1 (deriveBaseThemeName t.name)
            (vmSet ((mapGet st.1 (deriveBaseThemeName t.name)).getD
                ⟨none, none⟩) v' t) := by
        rw [groupStep_some st t v' h]
      rw [h1]
      exact length_mapSet _ _ _

/-- The fold grows the Map by at most one entry per input theme. -/
theorem length_foldl (ts : List TokenTheme) :
    ∀ (st : List (Str × VariantMap) × List LogEvent),
      ((List.foldl groupStep st ts).1).length ≤ st.1.length + ts.length := by
  induction ts with
  | nil => intro st; simp
  | cons t ts ih =>
      intro st
      rw [List.foldl_cons]
      have h1 := ih (groupStep st t)
      have h2 := length_groupStep st t
      simp only [List.length_cons]
      omega

/-- groupThemes is the filterMap of the fold's Map, also on empty input. -/
theorem groupThemes_eq (themes : List TokenTheme) :
    groupThemes themes =
      ((groupThemesRun themes).1).filterMap (fun e =>
        if e.2.light.isSome || e.2.dark.isSome then
          some ⟨e.1, e.2.light, e.2.dark⟩
        else none) := by
  by_cases h : themes = []
  · subst h; rfl
  · unfold groupThemes
    rw [if_neg h]

/-- A theme found in a slot of a returned group is an input theme that
    classifies to that slot's variant and to that group's base name. -/
theorem slot_origin (themes : List TokenTheme) (g : XcodeTheme)
    (hg : g ∈ groupThemes themes) (v : ThemeVariant) (t : TokenTheme)
    (hs : slotOfGroup g v = some t) :
    t ∈ themes ∧ getThemeVariant t.name = some v ∧
      deriveBaseThemeName t.name = g.name := by
  rw [groupThemes_eq] at hg
  rcases List.mem_filterMap.mp hg with ⟨e, he, hmk⟩
  by_cases hcond : (e.2.light.isSome || e.2.dark.isSome) = true
  · rw [if_pos hcond] at hmk
    obtain rfl := Option.some.inj hmk
    have he' : e ∈ (List.foldl groupStep ([], []) themes).1 := he
    have hget : vmGet e.2 v = some t := by
      cases v
      · exact hs
      · exact hs
    exact fold_inv themes ([], []) themes (by simp) (fun x hx => hx)
      e he' v t hget
  · rw [if_neg hcond] at hmk
    cases hmk

/-- Mapping the group constructor over entries with a populated slot keeps
    exactly the key sequence. -/
theorem filterMap_names (gs : List (Str × VariantMap))
    (h : ∀ e ∈ gs, e.2.light.isSome = true ∨ e.2.dark.isSome = true) :
    (gs.filterMap (fun e =>
        if e.2.light.isSome || e.2.dark.isSome then
          some (⟨e.1, e.2.light, e.2.dark⟩ : XcodeTheme)
        else none)).map XcodeTheme.name = gs.map Prod.fst := by
  induction gs with
  | nil => rfl
  | cons e rest ih =>
      have hcond : (e.2.light.isSome || e.2.dark.isSome) = true := by
        rcases h e (List.mem_cons_self _ _) with h1 | h1 <;> simp [h1]
      rw [List.filterMap_cons,
        show (if e.2.light.isSome || e.2.dark.isSome then
            some (⟨e.1, e.2.light, e.2.dark⟩ : XcodeTheme)
          else none) = some ⟨e.1, e.2.light, e.2.dark⟩ from by rw [if_pos hcond]]
      simp only [List.map_cons]
      rw [ih (fun x hx => h x (List.mem_cons_of_mem _ hx))]

/- The claims about the theme grouper. -/

/-- C1: groupThemes classifies a theme name as light exactly when its
    trimmed, lower-cased form ends with the word light under a
    word-boundary match, as dark exactly when it ends with the word dark,
    and a theme matching neither is placed in no group. -/
theorem claim_c1 (name : Str) :
    (getThemeVariant name = some ThemeVariant.light ↔
      EndsWithWordAtBoundary (toLowerStr (trimStr name)) ("light".data)) ∧
    (getThemeVariant name = some ThemeVariant.dark ↔
      EndsWithWordAtBoundary (toLowerStr (trimStr name)) ("dark".data)) ∧
    ∀ (themes : List TokenTheme) (t : TokenTheme),
      getThemeVariant t.name = none →
      ∀ g ∈ groupThemes themes, ∀ (v : ThemeVariant),
        slotOfGroup g v ≠ some t := by
  refine ⟨getThemeVariant_light_iff name, getThemeVariant_dark_iff name, ?_⟩
  intro themes t ht g hg v hs
  obtain ⟨_, h2, _⟩ := slot_origin themes g hg v t hs
  rw [ht] at h2
  cases h2

/-- Witness for C1: the name Brand Light classifies as light, the name
    Foo Dark (with trailing space) classifies as dark, and the suffixless
    theme Brand occupies no slot of any group. -/
theorem claim_c1_witness :
    getThemeVariant ("Brand Light".data) = some ThemeVariant.light ∧
    getThemeVariant ("Foo Dark ".data) = some ThemeVariant.dark ∧
    ∀ g ∈ groupThemes [sampleThemePlain], ∀ (v : ThemeVariant),
      slotOfGroup g v ≠ some sampleThemePlain := by
  refine ⟨?_, ?_, ?_⟩
  · exact (claim_c1 ("Brand Light".data)).1.mpr
      ⟨"brand ".data, by decide, Or.inr ⟨' ', by decide, by decide⟩⟩
  · exact (claim_c1 ("Foo Dark ".data)).2.1.mpr
      ⟨"foo ".data, by decide, Or.inr ⟨' ', by decide, by decide⟩⟩
  · exact (claim_c1 []).2.2 [sampleThemePlain] sampleThemePlain (by decide)

/-- C4: when two or more input themes classify to the same base name and
    variant, the returned group for that base holds, in that variant's
    slot, the latest such theme in input order, and one duplicate warning
    is logged for each replacement (one fewer than the duplicates). -/
theorem claim_c4 (themes : List TokenTheme) (b : Str) (v : ThemeVariant)
    (h : 2 ≤ (themes.filter (fun t => classifiesTo t b v)).length) :
    (∃ g ∈ groupThemes themes, g.name = b ∧
       slotOfGroup g v =
         (themes.filter (fun t => classifiesTo t b v)).getLast?) ∧
    (groupThemesLog themes).count (LogEvent.dup v b) =
      (themes.filter (fun t => classifiesTo t b v)).length - 1 := by
  have hne : themes.filter (fun t => classifiesTo t b v) ≠ [] := by
    intro hc
    rw [hc] at h
    simp at h
  have h0 : slotIn ([] : List (Str × VariantMap)) b v = none := by
    cases v <;> rfl
  have hslot : slotIn (groupThemesRun themes).1 b v =
      (themes.filter (fun t => classifiesTo t b v)).getLast? := by
    unfold groupThemesRun
    rw [slot_foldl themes ([], []) b v]
    rw [show slotIn (([], []) :
        List (Str × VariantMap) × List LogEvent).1 b v = none from h0]
    rw [optOr_none_right]
  constructor
  · obtain ⟨t, hlast⟩ : ∃ t,
        (themes.filter (fun t => classifiesTo t b v)).getLast? = some t := by
      cases hgl : (themes.filter (fun t => classifiesTo t b v)).getLast? with
      | none => exact absurd (List.getLast?_eq_none_iff.mp hgl) hne
      | some t => exact ⟨t, rfl⟩
    cases hm : mapGet (groupThemesRun themes).1 b with
    | none =>
        have hnone : slotIn (groupThemesRun themes).1 b v = none := by
          unfold slotIn
          rw [hm]
          cases v <;> rfl
        rw [hnone, hlast] at hslot
        cases hslot
    | some p =>
        have hpv : vmGet p v = some t := by
          have heq : slotIn (groupThemesRun themes).1 b v = vmGet p v := by
            unfold slotIn
            rw [hm, Option.getD_some]
          rw [← heq, hslot, hlast]
        refine ⟨⟨b, p.light, p.dark⟩, ?_, rfl, ?_⟩
        · rw [groupThemes_eq]
          refine List.mem_filterMap.mpr ⟨(b, p), mapGet_mem _ _ _ hm, ?_⟩
          have hcond : (p.light.isSome || p.dark.isSome) = true := by
            cases v
            · have hl : p.light = some t := hpv
              simp [hl]
            · have hd : p.dark = some t := hpv
              simp [hd]
          rw [if_pos hcond]
        · rw [hlast]
          cases v <;> exact hpv
  · have hcnt := count_foldl_dup themes ([], []) b v
    rw [show slotIn (([], []) :
        List (Str × VariantMap) × List LogEvent).1 b v = none from h0] at hcnt
    simp only [Option.isSome_none, List.count_nil, Nat.zero_add] at hcnt
    rw [groupThemesLog]
    unfold groupThemesRun
    rw [hcnt]
    rw [if_neg (by simp)]

/-- Witness for C4: two themes named A Light yield one group named A whose
    light slot is the second theme, with one duplicate warning logged. -/
theorem claim_c4_witness :
    (∃ g ∈ groupThemes [sampleThemeALight, sampleThemeALight2],
       g.name = "A".data ∧
       slotOfGroup g ThemeVariant.light =
         ([sampleThemeALight, sampleThemeALight2].filter
            (fun t => classifiesTo t ("A".data) ThemeVariant.light)).getLast?) ∧
    (groupThemesLog [sampleThemeALight, sampleThemeALight2]).count
        (LogEvent.dup ThemeVariant.light ("A".data)) =
      ([sampleThemeALight, sampleThemeALight2].filter
         (fun t => classifiesTo t ("A".data) ThemeVariant.light)).length - 1 :=
  claim_c4 [sampleThemeALight, sampleThemeALight2] ("A".data)
    ThemeVariant.light (by decide)

/-- C8: the base name under which groupThemes stores a classified theme is
    the first whitespace-delimited token of the theme's trimmed name, and a
    theme with no recognised light or dark suffix occupies no slot of any
    returned group. -/
theorem claim_c8 :
    (∀ (themes : List TokenTheme) (g : XcodeTheme), g ∈ groupThemes themes →
       ∀ (v : ThemeVariant) (t : TokenTheme), slotOfGroup g v = some t →
         g.name = (trimStr t.name).takeWhile (fun c => !isSpaceChar c)) ∧
    ∀ (themes : List TokenTheme) (t : TokenTheme),
      getThemeVariant t.name = none →
      ∀ g ∈ groupThemes themes, ∀ (v : ThemeVariant),
        slotOfGroup g v ≠ some t := by
  constructor
  · intro themes g hg v t hs
    obtain ⟨_, hvar, hbase⟩ := slot_origin themes g hg v t hs
    rw [← hbase,
      deriveBaseThemeName_eq_takeWhile t.name
        (trimStr_ne_nil_of_variant t.name v hvar)]
  · intro themes t ht g hg v hs
    obtain ⟨_, h2, _⟩ := slot_origin themes g hg v t hs
    rw [ht] at h2
    cases h2

/-- Witness for C8: the Brand Light and Brand Dark themes group under the
    base Brand, the first word of their trimmed names. -/
theorem claim_c8_witness :
    (⟨"Brand".data, some sampleThemeLight, some sampleThemeDark⟩ :
        XcodeTheme).name =
      (trimStr sampleThemeLight.name).takeWhile (fun c => !isSpaceChar c) :=
  claim_c8.1 [sampleThemeLight, sampleThemeDark]
    ⟨"Brand".data, some sampleThemeLight, some sampleThemeDark⟩ (by decide)
    ThemeVariant.light sampleThemeLight (by decide)

/-- C9: the returned groups are named by the first occurrence, in input
    order, of each classified base name; no returned group has both slots
    empty; empty input returns empty output. -/
theorem claim_c9 (themes : List TokenTheme) :
    (groupThemes themes).map XcodeTheme.name =
      firstOccur (classifiedBases themes) ∧
    (∀ g ∈ groupThemes themes, g.lightTheme ≠ none ∨ g.darkTheme ≠ none) ∧
    groupThemes ([] : List TokenTheme) = [] := by
  refine ⟨?_, ?_, rfl⟩
  · rw [groupThemes_eq]
    unfold groupThemesRun
    have hne := fold_entries_nonempty themes ([], [])
      (fun e he => absurd he (List.not_mem_nil e))
    rw [filterMap_names _ hne, keys_foldl themes ([], [])]
    rfl
  · intro g hg
    rw [groupThemes_eq] at hg
    rcases List.mem_filterMap.mp hg with ⟨e, he, hmk⟩
    have hne := fold_entries_nonempty themes ([], [])
      (fun x hx => absurd hx (List.not_mem_nil x)) e he
    have hcond : (e.2.light.isSome || e.2.dark.isSome) = true := by
      rcases hne with h1 | h1 <;> simp [h1]
    rw [if_pos hcond] at hmk
    obtain rfl := Option.some.inj hmk
    rcases hne with h1 | h1
    · exact Or.inl (Option.isSome_iff_ne_none.mp h1)
    · exact Or.inr (Option.isSome_iff_ne_none.mp h1)

/-- Witness for C9: a classified, a skipped and another classified theme
    produce groups in first-occurrence order of their bases, and a
    concrete returned group has a populated slot. -/
theorem claim_c9_witness :
    ((groupThemes [sampleThemeLight, sampleThemePlain, sampleThemeALight]).map
        XcodeTheme.name =
      firstOccur
        (classifiedBases [sampleThemeLight, sampleThemePlain, sampleThemeALight])) ∧
    ((⟨"Brand".data, some sampleThemeLight, none⟩ : XcodeTheme).lightTheme ≠ none ∨
      (⟨"Brand".data, some sampleThemeLight, none⟩ : XcodeTheme).darkTheme ≠ none) :=
  ⟨(claim_c9 [sampleThemeLight, sampleThemePlain, sampleThemeALight]).1,
   (claim_c9 [sampleThemeLight, sampleThemeALight]).2.1
     ⟨"Brand".data, some sampleThemeLight, none⟩ (by decide)⟩

/-- C10: every theme stored in a returned group is an input theme, sits in
    the slot matching its own name's classification, belongs to the group
    named by its derived base name, and the number of groups never exceeds
    the number of input themes. -/
theorem claim_c10 (themes : List TokenTheme) :
    (∀ g ∈ groupThemes themes, ∀ (v : ThemeVariant) (t : TokenTheme),
       slotOfGroup g v = some t →
         t ∈ themes ∧ getThemeVariant t.name = some v ∧
           deriveBaseThemeName t.name = g.name) ∧
    (groupThemes themes).length ≤ themes.length := by
  constructor
  · intro g hg v t hs
    exact slot_origin themes g hg v t hs
  · rw [groupThemes_eq]
    have h1 := List.length_filterMap_le (fun e =>
        if (e : Str × VariantMap).2.light.isSome || e.2.dark.isSome then
          some (⟨e.1, e.2.light, e.2.dark⟩ : XcodeTheme)
        else none) (groupThemesRun themes).1
    have h2 : ((groupThemesRun themes).1).length ≤ themes.length := by
      have := length_foldl themes ([], [])
      simpa using this
    omega

/-- Witness for C10: in the grouping of Brand Light and Brand Dark, the
    light slot's theme is an input theme classifying as light with base
    Brand. -/
theorem claim_c10_witness :
    sampleThemeLight ∈ [sampleThemeLight, sampleThemeDark] ∧
    getThemeVariant sampleThemeLight.name = some ThemeVariant.light ∧
    deriveBaseThemeName sampleThemeLight.name =
      (⟨"Brand".data, some sampleThemeLight, some sampleThemeDark⟩ :
        XcodeTheme).name :=
  (claim_c10 [sampleThemeLight, sampleThemeDark]).1
    ⟨"Brand".data, some sampleThemeLight, some sampleThemeDark⟩ (by decide)
    ThemeVariant.light sampleThemeLight (by decide)

/- Lemmas and claims about the export orchestration. -/

/-- When every requested id has a matching theme, resolution succeeds and
    resolves each id, in order, to a theme matching it by id or
    idInVersion. -/
theorem resolveThemes_ok (ids : List Str) (themes : List TokenTheme)
    (h : ∀ tid ∈ ids, ∃ th ∈ themes,
        (th.id == tid || th.idInVersion == tid) = true) :
    ∃ ts, resolveThemes ids themes = Except.ok ts ∧
      List.Forall₂ (fun (th : TokenTheme) (tid : Str) =>
        th.id = tid ∨ th.idInVersion = tid) ts ids := by
  induction ids with
  | nil => exact ⟨[], rfl, List.Forall₂.nil⟩
  | cons tid rest ih =>
      have hsome : (themes.find?
          (fun t => t.id == tid || t.idInVersion == tid)).isSome := by
        rw [List.find?_isSome]
        obtain ⟨th, hmem, hp⟩ := h tid (List.mem_cons_self _ _)
        exact ⟨th, hmem, hp⟩
      cases hf : themes.find? (fun t => t.id == tid || t.idInVersion == tid) with
      | none => rw [hf] at hsome; cases hsome
      | some th =>
          obtain ⟨ts, hok, hrel⟩ := ih (fun x hx => h x (List.mem_cons_of_mem _ hx))
          refine ⟨th :: ts, ?_, ?_⟩
          · simp only [resolveThemes, hf, hok]
          · refine List.Forall₂.cons ?_ hrel
            have hp := List.find?_some hf
            simpa using hp

/-- When some requested id matches no theme, resolution throws. -/
theorem resolveThemes_error (ids : List Str) (themes : List TokenTheme)
    (tid : Str) (hmem : tid ∈ ids)
    (h : ∀ th ∈ themes, ¬((th.id == tid || th.idInVersion == tid) = true)) :
    ∃ e, resolveThemes ids themes = Except.error e := by
  induction ids with
  | nil => cases hmem
  | cons tid0 rest ih =>
      rcases List.mem_cons.mp hmem with rfl | hmem'
      · have hf : themes.find?
            (fun t => t.id == tid || t.idInVersion == tid) = none :=
          List.find?_eq_none.mpr h
        exact ⟨"Unable to find theme ".data ++ tid,
          by simp only [resolveThemes, hf]⟩
      · cases hf : themes.find?
            (fun t => t.id == tid0 || t.idInVersion == tid0) with
        | none =>
            exact ⟨"Unable to find theme ".data ++ tid0,
              by simp only [resolveThemes, hf]⟩
        | some th =>
            obtain ⟨e, he⟩ := ih hmem'
            exact ⟨e, by simp only [resolveThemes, hf, he]⟩

/-- C3: under a non-empty theme-id selection, when every requested id
    matches a fetched theme by id or idInVersion the run resolves them
    in order and returns a file list, and when some requested id matches
    no fetched theme the run aborts with an error and returns no file
    list. -/
theorem claim_c3 (inp : ExportInput) (ids : List Str)
    (hids : inp.themeIds = some ids) (hne : ids ≠ []) :
    ((∀ tid ∈ ids, ∃ th ∈ inp.themes, th.id = tid ∨ th.idInVersion = tid) →
       ∃ ts, resolveRequestedThemes inp = Except.ok ts ∧
         pulsarExport inp = Except.ok (exportFiles inp ts) ∧
         List.Forall₂ (fun (th : TokenTheme) (tid : Str) =>
           th.id = tid ∨ th.idInVersion = tid) ts ids) ∧
    ((∃ tid ∈ ids, ∀ th ∈ inp.themes, ¬(th.id = tid ∨ th.idInVersion = tid)) →
       ∃ e, pulsarExport inp = Except.error e) := by
  have hrr : resolveRequestedThemes inp = resolveThemes ids inp.themes := by
    simp only [resolveRequestedThemes, hids]
    rw [if_neg hne]
  constructor
  · intro hall
    have hall' : ∀ tid ∈ ids, ∃ th ∈ inp.themes,
        (th.id == tid || th.idInVersion == tid) = true := by
      intro tid htid
      obtain ⟨th, hm, hp⟩ := hall tid htid
      refine ⟨th, hm, ?_⟩
      rcases hp with h1 | h1 <;> simp [h1]
    obtain ⟨ts, hok, hrel⟩ := resolveThemes_ok ids inp.themes hall'
    refine ⟨ts, hrr.trans hok, ?_, hrel⟩
    unfold pulsarExport
    rw [hrr, hok]
    rfl
  · rintro ⟨tid, htid, hnone⟩
    have hnone' : ∀ th ∈ inp.themes,
        ¬((th.id == tid || th.idInVersion == tid) = true) := by
      intro th hm hc
      refine hnone th hm ?_
      simpa using hc
    obtain ⟨e, he⟩ := resolveThemes_error ids inp.themes tid htid hnone'
    refine ⟨e, ?_⟩
    unfold pulsarExport
    rw [hrr, he]
    rfl

/-- Witness for C3: the sample input requests ids t1 and v2, which resolve
    by id and by idInVersion respectively, so the run succeeds. -/
theorem claim_c3_witness :
    ∃ ts, resolveRequestedThemes sampleInput = Except.ok ts ∧
      pulsarExport sampleInput = Except.ok (exportFiles sampleInput ts) ∧
      List.Forall₂ (fun (th : TokenTheme) (tid : Str) =>
        th.id = tid ∨ th.idInVersion = tid) ts ["t1".data, "v2".data] :=
  (claim_c3 sampleInput ["t1".data, "v2".data] rfl (by decide)).1 (by decide)

/-- C2: a run that completes without error returns a list containing the
    log file, the root catalog file when enabled, and every file emitted
    for every theme group. -/
theorem claim_c2 (inp : ExportInput) (fs : List OutputFile)
    (h : pulsarExport inp = Except.ok fs) :
    logFileOf (resolveRootPath inp.config) ∈ fs ∧
    (inp.config.generateRootCatalog = true →
      createCatalogRootFile (resolveRootPath inp.config) ∈ fs) ∧
    ∃ ts, resolveRequestedThemes inp = Except.ok ts ∧
      ∀ g ∈ groupThemes ts,
        ∀ f ∈ exportThemeGroup inp.codeSafe inp.applyTheme inp.nameFn
            inp.tokens (filteredColorTokens inp)
            (resolveRootPath inp.config) g,
          f ∈ fs := by
  unfold pulsarExport at h
  cases hr : resolveRequestedThemes inp with
  | error e =>
      rw [hr] at h
      exact absurd h (by simp [Except.map])
  | ok ts =>
      rw [hr] at h
      have hfs : fs = exportFiles inp ts := by
        have h2 : Except.ok (exportFiles inp ts) =
            (Except.ok fs : Except Str (List OutputFile)) := h
        exact (Except.ok.inj h2).symm
      subst hfs
      unfold exportFiles
      refine ⟨List.mem_cons_self _ _, ?_, ts, rfl, ?_⟩
      · intro hroot
        refine List.mem_cons_of_mem _ (List.mem_append_left _ ?_)
        rw [if_pos hroot]
        exact List.mem_singleton.mpr rfl
      · intro g hg f hf
        refine List.mem_cons_of_mem _ (List.mem_append_right _ ?_)
        exact List.mem_flatten_of_mem (List.mem_map_of_mem _ hg) hf

/-- Witness for C2: the sample run succeeds and its returned list contains
    the log file. -/
theorem claim_c2_witness :
    logFileOf (resolveRootPath sampleInput.config) ∈
      exportFiles sampleInput [sampleThemeLight, sampleThemeDark] :=
  (claim_c2 sampleInput
    (exportFiles sampleInput [sampleThemeLight, sampleThemeDark]) rfl).1

/-- C7: a theme group with no light theme emits exactly its namespace
    marker Contents.json, whose content is
    info version 1 author xcode with properties provides-namespace true,
    and no per-token color-set files. -/
theorem claim_c7 (codeSafe : Str → StringCase → Str)
    (applyTheme : List Token → TokenTheme → List Token) (nameFn : Token → Str)
    (tokens colorTokens : List Token) (rootPath : Str) (g : XcodeTheme)
    (h : g.lightTheme = none) :
    exportThemeGroup codeSafe applyTheme nameFn tokens colorTokens rootPath g =
      [createNameSpaceFolder (codeSafe g.name StringCase.pascalCase) rootPath] ∧
    (createNameSpaceFolder (codeSafe g.name StringCase.pascalCase)
        rootPath).name = "Contents.json".data ∧
    (createNameSpaceFolder (codeSafe g.name StringCase.pascalCase)
        rootPath).content =
      FileContent.namespaceMarker ⟨⟨1, "xcode".data⟩, true⟩ := by
  refine ⟨?_, rfl, rfl⟩
  unfold exportThemeGroup
  rw [h]

/-- Witness for C7: a dark-only group named Brand yields exactly one
    namespace marker file. -/
theorem claim_c7_witness :
    exportThemeGroup sampleCodeSafe sampleApply sampleNameFn [] [] []
        ⟨"Brand".data, none, some sampleThemeDark⟩ =
      [createNameSpaceFolder
        (sampleCodeSafe ("Brand".data) StringCase.pascalCase) []] ∧
    (createNameSpaceFolder
        (sampleCodeSafe ("Brand".data) StringCase.pascalCase) []).name =
      "Contents.json".data ∧
    (createNameSpaceFolder
        (sampleCodeSafe ("Brand".data) StringCase.pascalCase) []).content =
      FileContent.namespaceMarker ⟨⟨1, "xcode".data⟩, true⟩ :=
  claim_c7 sampleCodeSafe sampleApply sampleNameFn [] [] []
    ⟨"Brand".data, none, some sampleThemeDark⟩ rfl

/-- The base value of an emitted per-token file is the value of the token
    passed as its base. -/
theorem fileBaseValue_perToken (nameFn : Token → Str) (base : Token)
    (colorsPath : Str) (variants : List Token) :
    fileBaseValue (createPerTokenFile nameFn base colorsPath variants) =
      some base.value := by
  simp [createPerTokenFile, fileBaseValue]

/-- An emitted per-token file carries a dark-tagged entry exactly when its
    variant list is non-empty. -/
theorem fileHasDark_perToken (nameFn : Token → Str) (base : Token)
    (colorsPath : Str) (variants : List Token) :
    fileHasDarkVariant (createPerTokenFile nameFn base colorsPath variants) =
      !variants.isEmpty := by
  cases variants with
  | nil => simp [createPerTokenFile, fileHasDarkVariant]
  | cons v vs => simp [createPerTokenFile, fileHasDarkVariant]

/-- C5: in a group with a light theme, each color token's emitted base
    value is its value under the light-theme valuation when that valuation
    contains the token's id and its own unmodified value otherwise, and a
    dark variant is emitted exactly when the dark-theme valuation contains
    the token's id, hence never when the group has no dark theme. -/
theorem claim_c5 (applyTheme : List Token → TokenTheme → List Token)
    (nameFn : Token → Str) (tokens colorTokens : List Token)
    (colorsPath : Str) (lightTheme : TokenTheme)
    (darkTheme : Option TokenTheme) :
    (createThemeColors applyTheme nameFn tokens colorTokens colorsPath
        lightTheme darkTheme).length = colorTokens.length ∧
    ∀ (i : Nat) (hi : i < colorTokens.length)
      (ho : i < (createThemeColors applyTheme nameFn tokens colorTokens
          colorsPath lightTheme darkTheme).length),
      fileBaseValue ((createThemeColors applyTheme nameFn tokens colorTokens
          colorsPath lightTheme darkTheme)[i]) =
        some (match jsMapGet (applyTheme tokens lightTheme)
            (colorTokens[i]).id with
          | some bt => bt.value
          | none => (colorTokens[i]).value) ∧
      (fileHasDarkVariant ((createThemeColors applyTheme nameFn tokens
          colorTokens colorsPath lightTheme darkTheme)[i]) = true ↔
        (jsMapGet (computeTokensForTheme applyTheme tokens darkTheme)
          (colorTokens[i]).id).isSome = true) ∧
      (darkTheme = none →
        fileHasDarkVariant ((createThemeColors applyTheme nameFn tokens
          colorTokens colorsPath lightTheme darkTheme)[i]) = false) := by
  constructor
  · simp [createThemeColors]
  · intro i hi ho
    have hmap : (createThemeColors applyTheme nameFn tokens colorTokens
        colorsPath lightTheme darkTheme)[i] =
        createPerTokenFile nameFn
          ((jsMapGet (applyTheme tokens lightTheme)
            (colorTokens[i]).id).getD (colorTokens[i]))
          colorsPath
          (match jsMapGet (computeTokensForTheme applyTheme tokens darkTheme)
              (colorTokens[i]).id with
           | some d => [d]
           | none => []) := by
      simp only [createThemeColors, computeTokensForTheme, List.getElem_map]
    rw [hmap]
    refine ⟨?_, ?_, ?_⟩
    · rw [fileBaseValue_perToken]
      cases hb : jsMapGet (applyTheme tokens lightTheme) (colorTokens[i]).id with
      | some bt => simp
      | none => simp
    · rw [fileHasDark_perToken]
      cases hd : jsMapGet (computeTokensForTheme applyTheme tokens darkTheme)
          (colorTokens[i]).id with
      | some d => simp
      | none => simp
    · intro hdn
      subst hdn
      rw [fileHasDark_perToken]
      simp [computeTokensForTheme, jsMapGet]

/-- Witness for C5: one color token under a light theme only yields one
    file with no dark variant. -/
theorem claim_c5_witness :
    (createThemeColors sampleApply sampleNameFn [sampleTokenRed]
        [sampleTokenRed] ("Brand".data) sampleThemeLight none).length = 1 ∧
    fileHasDarkVariant ((createThemeColors sampleApply sampleNameFn
        [sampleTokenRed] [sampleTokenRed] ("Brand".data)
        sampleThemeLight none)[0]) = false := by
  have h := claim_c5 sampleApply sampleNameFn [sampleTokenRed] [sampleTokenRed]
    ("Brand".data) sampleThemeLight none
  exact ⟨h.1, (h.2 0 (by decide) (by decide)).2.2 rfl⟩

/-- C6: with exclusion enabled and a non-empty exclusion list, a color
    token is dropped exactly when its collection resolves by persistentId
    to a collection whose lower-cased, trimmed name is in the lower-cased,
    trimmed exclusion set; a token whose collection does not resolve is
    kept; with the flag off or the list empty nothing is dropped. -/
theorem claim_c6 (config : ExporterConfiguration)
    (tokenCollections : List TokenCollection) (tokens : List Token)
    (token : Token) (hmem : token ∈ tokens) :
    (config.excludeCollectionsInPipelines = true →
      config.excludedCollections ≠ [] →
      (token ∉ filterExcludedCollections config tokens tokenCollections ↔
        ∃ c, tokenCollections.find?
            (fun c => token.collectionId == some c.persistentId) = some c ∧
          toLowerStr (trimStr c.name) ∈
            config.excludedCollections.map (fun n => toLowerStr (trimStr n)))) ∧
    (tokenCollections.find?
        (fun c => token.collectionId == some c.persistentId) = none →
      token ∈ filterExcludedCollections config tokens tokenCollections) ∧
    ((config.excludeCollectionsInPipelines = false ∨
        config.excludedCollections = []) →
      filterExcludedCollections config tokens tokenCollections = tokens) := by
  refine ⟨?_, ?_, ?_⟩
  · intro hon hnel
    have hcond : ¬(config.excludeCollectionsInPipelines = false ∨
        config.excludedCollections = []) := by
      rintro (h1 | h1)
      · rw [hon] at h1
        cases h1
      · exact hnel h1
    unfold filterExcludedCollections
    rw [if_neg hcond]
    constructor
    · intro hnot
      by_cases hp : (match tokenCollections.find?
            (fun c => token.collectionId == some c.persistentId) with
          | none => true
          | some c =>
              !((config.excludedCollections.map
                  (fun n => toLowerStr (trimStr n))).contains
                (toLowerStr (trimStr c.name)))) = true
      · exact absurd (List.mem_filter.mpr ⟨hmem, hp⟩) hnot
      · cases hf : tokenCollections.find?
            (fun c => token.collectionId == some c.persistentId) with
        | none =>
            rw [hf] at hp
            exact absurd rfl hp
        | some c =>
            rw [hf] at hp
            refine ⟨c, rfl, ?_⟩
            simp only [Bool.not_eq_true, Bool.not_eq_false'] at hp
            have hiff : ((config.excludedCollections.map
                (fun n => toLowerStr (trimStr n))).contains
                  (toLowerStr (trimStr c.name))) = true ↔
                toLowerStr (trimStr c.name) ∈
                  config.excludedCollections.map (fun n => toLowerStr (trimStr n)) :=
              List.elem_iff
            exact hiff.mp hp
    · rintro ⟨c, hf, hmemex⟩ hmemfil
      have hp := (List.mem_filter.mp hmemfil).2
      rw [hf] at hp
      simp only [Bool.not_eq_true'] at hp
      have hiff : ((config.excludedCollections.map
          (fun n => toLowerStr (trimStr n))).contains
            (toLowerStr (trimStr c.name))) = true ↔
          toLowerStr (trimStr c.name) ∈
            config.excludedCollections.map (fun n => toLowerStr (trimStr n)) :=
        List.elem_iff
      rw [hiff.mpr hmemex] at hp
      cases hp
  · intro hf
    by_cases hoff : config.excludeCollectionsInPipelines = false ∨
        config.excludedCollections = []
    · unfold filterExcludedCollections
      rw [if_pos hoff]
      exact hmem
    · unfold filterExcludedCollections
      rw [if_neg hoff]
      refine List.mem_filter.mpr ⟨hmem, ?_⟩
      rw [hf]
  · intro hoff
    unfold filterExcludedCollections
    rw [if_pos hoff]

/-- Witness for C6: the red token's collection col1 is named Excluded with
    padding, which matches the padded upper-case exclusion entry, so the
    token is dropped. -/
theorem claim_c6_witness :
    sampleTokenRed ∉ filterExcludedCollections sampleConfigExcl
      [sampleTokenRed, sampleTokenBlue] [sampleCollection] :=
  ((claim_c6 sampleConfigExcl [sampleCollection]
      [sampleTokenRed, sampleTokenBlue] sampleTokenRed (by decide)).1
    rfl (by decide)).mpr ⟨sampleCollection, by decide, by decide⟩
